import Mathlib

/-! The transaction pool, `src/CryptoNoteCore/TransactionPool.h`.

A shallow embedding of the parts of the transaction memory pool header that
carry behaviour: the rate limiter `OnceInTimeInterval`, the pool record
`PoolTransactionDetails`, the priority comparator
`TransactionPriorityComparator`, the two-index container `tx_container_t`
and the query `getTransactions`; and of the errno test of
`src/Platform/Linux/System/Timer.h`.

Conventions.
* `uint64_t` values are natural numbers; a value is a legal `uint64_t` when it
  is below `2 ^ 64` (`PoolTransactionDetails.InRange`). Where the C++ stores a
  result in a `uint64_t` the embedding reduces it modulo `2 ^ 64`.
* `time_t` is the 64-bit signed integer of the Linux platform this code is
  built for. A `time_t` value is an integer from `-2 ^ 63` up to `2 ^ 63 - 1`;
  the one arithmetic operation the code does on `time_t`, the subtraction in
  `OnceInTimeInterval::call`, is reduced to that range by `wrapInt64`.
* `unsigned` values are natural numbers.
-/

namespace CryptoNote

/-! ## Data model -/

/-- The type `Crypto::Hash`: a 32-byte value, held as the number its bytes spell. -/
abbrev Hash := Fin (2 ^ 256)

/-- The type `CryptoNote::Transaction`: an opaque body, held as its serialized bytes. -/
structure Transaction where
  blob : List Nat
  deriving DecidableEq, Repr

/-- The type `CryptoNote::BlockInfo`: height and id of a block. -/
structure BlockInfo where
  height : Nat
  id : Hash
  deriving DecidableEq, Repr

/-- The record `tx_memory_pool::PoolTransactionDetails`, with the two fields it inherits
from `TransactionCheckInfo` listed first, as in the C++ layout. -/
structure PoolTransactionDetails where
  maxUsedBlock : BlockInfo
  lastFailedBlock : BlockInfo
  id : Hash
  tx : Transaction
  blobSize : Nat
  fee : Nat
  keptByBlock : Bool
  receiveTime : Int
  deriving DecidableEq, Repr

/-- The `uint64_t` fields of an entry hold `uint64_t` values. -/
def PoolTransactionDetails.InRange (e : PoolTransactionDetails) : Prop :=
  e.fee < 2 ^ 64 ∧ e.blobSize < 2 ^ 64

instance (e : PoolTransactionDetails) : Decidable e.InRange := by
  unfold PoolTransactionDetails.InRange
  exact inferInstance

/-! ## The priority comparator -/

/-- Modelled from the spec: `mul128` of `Common/int-util.h`, which is not among
the sources. The spec asks for a "128-bit intermediate product" decomposed
"into hi/lo 64-bit halves"; the call sites in `TransactionPriorityComparator`
fix the shape: the low half is the returned `uint64_t`, the high half is
written through the `uint64_t*` argument. The pair is `(hi, lo)`. -/
def mul128 (multiplier multiplicand : Nat) : Nat × Nat :=
  ((multiplier * multiplicand / 2 ^ 64) % 2 ^ 64, (multiplier * multiplicand) % 2 ^ 64)

/-- The call operator of `tx_memory_pool::TransactionPriorityComparator`:
`true` when `lhs` has the higher priority. -/
def TransactionPriorityComparator (lhs rhs : PoolTransactionDetails) : Bool :=
  let lhs_hi := (mul128 lhs.fee rhs.blobSize).1
  let lhs_lo := (mul128 lhs.fee rhs.blobSize).2
  let rhs_hi := (mul128 rhs.fee lhs.blobSize).1
  let rhs_lo := (mul128 rhs.fee lhs.blobSize).2
  -- prefer more profitable transactions
  decide (lhs_hi > rhs_hi) ||
  (decide (lhs_hi = rhs_hi) && decide (lhs_lo > rhs_lo)) ||
  -- prefer smaller
  (decide (lhs_hi = rhs_hi) && decide (lhs_lo = rhs_lo) &&
    decide (lhs.blobSize < rhs.blobSize)) ||
  -- prefer older
  (decide (lhs_hi = rhs_hi) && decide (lhs_lo = rhs_lo) &&
    decide (lhs.blobSize = rhs.blobSize) && decide (lhs.receiveTime < rhs.receiveTime))

/-- An entry built from the three fields the comparator reads; the other
fields are zero. -/
def mkEntry (id : Hash) (fee blobSize : Nat) (receiveTime : Int) : PoolTransactionDetails :=
  { maxUsedBlock := ⟨0, 0⟩, lastFailedBlock := ⟨0, 0⟩, id := id, tx := ⟨[]⟩,
    blobSize := blobSize, fee := fee, keptByBlock := false, receiveTime := receiveTime }

/-! ## The pool container -/

/-- The type `tx_container_t`: the `multi_index_container` of pool entries with
its two indices, each held as the sequence of entries a traversal from
`begin()` yields. `main_index` is index 0 (`main_index_t`, `hashed_unique` on
`id`), `fee_index` is index 1 (`fee_index_t`, `ordered_non_unique` under
`TransactionPriorityComparator`). A hashed index leaves its traversal order
open; the embedding lists `main_index` in insertion order, and no statement
below depends on that order. -/
structure tx_container_t where
  main_index : List PoolTransactionDetails
  fee_index : List PoolTransactionDetails
  deriving DecidableEq, Repr

namespace tx_container_t

/-- The container a pool starts with. -/
def empty : tx_container_t := ⟨[], []⟩

/-- The lookup `m_transactions.find(id)`, through index 0, the id-keyed index;
`none` stands for `end()`. -/
def find (c : tx_container_t) (id : Hash) : Option PoolTransactionDetails :=
  c.main_index.find? (fun e => decide (e.id = id))

/-- Modelled from the spec: the placement of a new key in the "ordered multiset
of priority keys" (§9) that is the priority index; the insertion code is in
`TransactionPool.cpp` and the container library, neither among the sources.
The new entry goes in front of the first stored entry it outranks, behind
every entry it does not outrank (so behind the entries it is tied with). -/
def orderedInsert (x : PoolTransactionDetails) :
    List PoolTransactionDetails → List PoolTransactionDetails
  | [] => [x]
  | y :: ys =>
    if TransactionPriorityComparator x y = true then x :: y :: ys
    else y :: orderedInsert x ys

/-- Modelled from the spec: insertion of a pool entry (§4.1 steps 4 and 6, §9),
done by `add_tx` in `TransactionPool.cpp`, which is not among the sources. "If
the id is already present, return `already_present` with no mutation";
otherwise the entry enters the id-keyed store and the priority index "in the
same critical section". -/
def insert (c : tx_container_t) (x : PoolTransactionDetails) : tx_container_t :=
  match c.find x.id with
  | some _ => c
  | none => { main_index := c.main_index ++ [x], fee_index := orderedInsert x c.fee_index }

/-- Modelled from the spec: removal of the entry with a given id (§4.2), done
by `take_tx` and `removeTransaction` in `TransactionPool.cpp`, which is not
among the sources: it "removes the entry's contributions from all indices". -/
def erase (c : tx_container_t) (id : Hash) : tx_container_t :=
  { main_index := c.main_index.filter (fun e => !decide (e.id = id)),
    fee_index := c.fee_index.filter (fun e => !decide (e.id = id)) }

end tx_container_t

/-- A mutation of the pool container. -/
inductive PoolOp where
  | insert (x : PoolTransactionDetails)
  | erase (id : Hash)
  deriving DecidableEq, Repr

/-- One mutation applied to a container. -/
def tx_container_t.apply (c : tx_container_t) : PoolOp → tx_container_t
  | .insert x => c.insert x
  | .erase id => c.erase id

/-- The container reached from the empty one by a sequence of mutations. -/
def tx_container_t.run (ops : List PoolOp) : tx_container_t :=
  ops.foldl tx_container_t.apply tx_container_t.empty

/-- The entry an insertion carries is in range; a removal carries none. -/
def PoolOp.InRange : PoolOp → Prop
  | .insert x => x.InRange
  | .erase _ => True

instance (op : PoolOp) : Decidable op.InRange := by
  cases op with
  | insert x => exact inferInstanceAs (Decidable x.InRange)
  | erase id => exact inferInstanceAs (Decidable True)

/-- The priority index of a container holds in-range entries in descending
priority: no entry later in the traversal outranks an earlier one. -/
def FeeIndexOk (c : tx_container_t) : Prop :=
  (∀ e ∈ c.fee_index, e.InRange) ∧
  List.Pairwise (fun earlier later => TransactionPriorityComparator later earlier = false)
    c.fee_index

/-- The entries of scenario 3 of the spec: `(fee, size, time)` =
`(100, 100, t0)`, `(200, 100, t1)`, `(200, 50, t2)`. -/
def tx1 (t0 : Int) : PoolTransactionDetails := mkEntry 1 100 100 t0

/-- Second entry of scenario 3. -/
def tx2 (t1 : Int) : PoolTransactionDetails := mkEntry 2 200 100 t1

/-- Third entry of scenario 3. -/
def tx3 (t2 : Int) : PoolTransactionDetails := mkEntry 3 200 50 t2

/-! ## The pool and `getTransactions` -/

/-- The class `tx_memory_pool`, reduced to the member `getTransactions` reads. -/
structure tx_memory_pool where
  m_transactions : tx_container_t
  deriving DecidableEq, Repr

/-- The method `tx_memory_pool::getTransactions`. It is not `const`, so the
pool is threaded through; `txs` and `missedTxs` are the two output containers
with whatever they held at entry, and `push_back` appends. -/
def tx_memory_pool.getTransactions (self : tx_memory_pool) (txsIds : List Hash)
    (txs : List Transaction) (missedTxs : List Hash) :
    tx_memory_pool × List Transaction × List Hash :=
  match txsIds with
  | [] => (self, txs, missedTxs)
  | id :: rest =>
    match self.m_transactions.find id with
    | none => self.getTransactions rest txs (missedTxs ++ [id])
    | some it => self.getTransactions rest (txs ++ [it.tx]) missedTxs

/-! ## The rate limiter -/

/-- The interface `CryptoNote::ITimeProvider` as its caller sees it: `now()`
hands out a reading and may change the world `σ` it lives in. -/
structure ITimeProvider (σ : Type) where
  now : σ → Int × σ

/-- The class `OnceInTimeInterval`; the reference member `m_timeProvider` is
passed to `call` instead of being stored. -/
structure OnceInTimeInterval where
  m_lastWorkedTime : Int
  m_interval : Nat
  deriving DecidableEq, Repr

/-- The constructor `OnceInTimeInterval(interval, timeProvider)`. -/
def OnceInTimeInterval.init (interval : Nat) : OnceInTimeInterval :=
  { m_lastWorkedTime := 0, m_interval := interval }

/-- The 64-bit signed value that the machine keeps of an integer result: the
result itself when it lies from `-2 ^ 63` up to `2 ^ 63 - 1`, and otherwise the
value congruent to it modulo `2 ^ 64` in that range, which is what the
compiled subtraction of two `time_t` values leaves when it overflows. -/
def wrapInt64 (x : Int) : Int := (x + 2 ^ 63) % 2 ^ 64 - 2 ^ 63

/-- The method `OnceInTimeInterval::call`. The functor is a function on the
world that returns its `bool`; the result is the returned `bool`, the limiter
and the world after the call. `now - m_lastWorkedTime` is the subtraction of
two `time_t` values, so a 64-bit signed one (`wrapInt64`); the `unsigned`
interval is converted to that type for the comparison. -/
def OnceInTimeInterval.call {σ : Type} (self : OnceInTimeInterval)
    (m_timeProvider : ITimeProvider σ) (functr : σ → Bool × σ) (w : σ) :
    Bool × OnceInTimeInterval × σ :=
  let now := (m_timeProvider.now w).1
  let w1 := (m_timeProvider.now w).2
  if wrapInt64 (now - self.m_lastWorkedTime) > (self.m_interval : Int) then
    let res := (functr w1).1
    let w2 := (functr w1).2
    (res, { self with m_lastWorkedTime := (m_timeProvider.now w2).1 }, (m_timeProvider.now w2).2)
  else
    (true, self, w1)

/-- A time provider lifted to a world that carries an execution counter in its
second component; reading the clock leaves the counter alone. -/
def ITimeProvider.withCounter {σ : Type} (tp : ITimeProvider σ) : ITimeProvider (σ × Nat) :=
  { now := fun w => ((tp.now w.1).1, ((tp.now w.1).2, w.2)) }

/-- A functor that counts its own executions in the second component of the
world. -/
def countExecutions {σ : Type} (functr : σ → Bool × σ) : σ × Nat → Bool × (σ × Nat) :=
  fun w => ((functr w.1).1, ((functr w.1).2, w.2 + 1))

/-- A world for runs of the limiter: `tick` counts the clock readings handed
out so far, `ran` is the log the functors write, one pair per execution: the
tick at which the functor started and the tick at which it returned. -/
structure ClockWorld where
  tick : Nat
  ran : List (Nat × Nat)
  deriving DecidableEq, Repr

/-- The time provider of a `ClockWorld`: the `n`-th call of `now()` returns
`clock n`. -/
def clockProvider (clock : Nat → Int) : ITimeProvider ClockWorld :=
  { now := fun w => (clock w.tick, { w with tick := w.tick + 1 }) }

/-- A functor that returns `res`, lets `k` further clock readings go by while
it works, and logs its start and return ticks. -/
def work (res : Bool) (k : Nat) : ClockWorld → Bool × ClockWorld :=
  fun w => (res, { tick := w.tick + k, ran := w.ran ++ [(w.tick, w.tick + k)] })

/-- A sequence of `call` invocations on one limiter; each item gives the
result and the duration in ticks of the functor passed to that invocation. -/
def runCalls (clock : Nat → Int) :
    List (Bool × Nat) → OnceInTimeInterval → ClockWorld → OnceInTimeInterval × ClockWorld
  | [], o, w => (o, w)
  | (res, k) :: rest, o, w =>
    runCalls clock rest (o.call (clockProvider clock) (work res k) w).2.1
      (o.call (clockProvider clock) (work res k) w).2.2

/-- A clock for worked examples: the `n`-th reading is `100 * n`. -/
def steadyClock (n : Nat) : Int := 100 * (n : Int)

/-- A clock that jumps back: its readings are `100`, `1`, then the least
`time_t` value `-2 ^ 63`, then `5` for ever. -/
def jumpingClock (n : Nat) : Int :=
  if n = 0 then 100 else if n = 1 then 1 else if n = 2 then -2 ^ 63 else 5

end CryptoNote

/-! ## The timer's errno test (`src/Platform/Linux/System/Timer.h`) -/

namespace System

/-- The macros of `<errno.h>` that `Timer.h` looks at, as the platform header
leaves them: each is either defined with a value or not defined. -/
structure ErrnoHeader where
  eagain : Option Int
  ewouldblock : Option Int
  deriving DecidableEq, Repr

/-- The macro `EAGAIN` after lines 12-14 of `Timer.h`: the platform's value, or
`35` when the platform does not define it. -/
def EAGAIN (h : ErrnoHeader) : Int := h.eagain.getD 35

/-- The macro `EWOULDBLOCK` after lines 15-17 of `Timer.h`: the platform's
value, or `11` when the platform does not define it. -/
def EWOULDBLOCK (h : ErrnoHeader) : Int := h.ewouldblock.getD 11

/-- The method `System::Timer::testerrno`, with the `int` argument held as an
integer. -/
def Timer.testerrno (h : ErrnoHeader) (errnm : Int) : Bool :=
  if errnm ≠ EAGAIN h then
    if errnm ≠ EWOULDBLOCK h then false
    else true
  else true

end System

namespace CryptoNote

/-! ## Arithmetic of the comparator -/

theorem u64_mul_lt {a b : Nat} (ha : a < 2 ^ 64) (hb : b < 2 ^ 64) : a * b < 2 ^ 128 := by
  have h : a * b < 2 ^ 64 * 2 ^ 64 :=
    calc a * b ≤ a * 2 ^ 64 := Nat.mul_le_mul_left a (Nat.le_of_lt hb)
      _ < 2 ^ 64 * 2 ^ 64 := Nat.mul_lt_mul_of_pos_right ha (by norm_num)
  have e : (2 : Nat) ^ 64 * 2 ^ 64 = 2 ^ 128 := by norm_num
  omega

theorem hi_lo_gt_iff {p q : Nat} (hp : p < 2 ^ 128) (hq : q < 2 ^ 128) :
    (p / 2 ^ 64 % 2 ^ 64 > q / 2 ^ 64 % 2 ^ 64 ∨
      (p / 2 ^ 64 % 2 ^ 64 = q / 2 ^ 64 % 2 ^ 64 ∧ p % 2 ^ 64 > q % 2 ^ 64)) ↔ p > q := by
  omega

theorem hi_lo_eq_iff {p q : Nat} (hp : p < 2 ^ 128) (hq : q < 2 ^ 128) :
    (p / 2 ^ 64 % 2 ^ 64 = q / 2 ^ 64 % 2 ^ 64 ∧ p % 2 ^ 64 = q % 2 ^ 64) ↔ p = q := by
  omega

theorem comparator_iff (L R : PoolTransactionDetails) (hL : L.InRange) (hR : R.InRange) :
    TransactionPriorityComparator L R = true ↔
      (L.fee * R.blobSize > R.fee * L.blobSize ∨
        (L.fee * R.blobSize = R.fee * L.blobSize ∧ L.blobSize < R.blobSize) ∨
        (L.fee * R.blobSize = R.fee * L.blobSize ∧ L.blobSize = R.blobSize ∧
          L.receiveTime < R.receiveTime)) := by
  have hp := u64_mul_lt hL.1 hR.2
  have hq := u64_mul_lt hR.1 hL.2
  have hgt := hi_lo_gt_iff hp hq
  have heq := hi_lo_eq_iff hp hq
  simp only [TransactionPriorityComparator, mul128, Bool.or_eq_true, Bool.and_eq_true,
    decide_eq_true_eq]
  generalize L.fee * R.blobSize = p at *
  generalize R.fee * L.blobSize = q at *
  constructor
  · rintro (((h | h) | h) | h)
    · exact Or.inl (hgt.1 (Or.inl h))
    · exact Or.inl (hgt.1 (Or.inr h))
    · exact Or.inr (Or.inl ⟨heq.1 h.1, h.2⟩)
    · exact Or.inr (Or.inr ⟨heq.1 ⟨h.1.1.1, h.1.1.2⟩, h.1.2, h.2⟩)
  · rintro (h | h | h)
    · rcases hgt.2 h with h | h
      · exact Or.inl (Or.inl (Or.inl h))
      · exact Or.inl (Or.inl (Or.inr h))
    · exact Or.inl (Or.inr ⟨heq.2 h.1, h.2⟩)
    · exact Or.inr ⟨⟨heq.2 h.1, h.2.1⟩, h.2.2⟩

theorem cross_trans {a b c x y z : Nat} {tL tR tS : Int}
    (h1 : a * y > b * x ∨ (a * y = b * x ∧ x < y) ∨ (a * y = b * x ∧ x = y ∧ tL < tR))
    (h2 : b * z > c * y ∨ (b * z = c * y ∧ y < z) ∨ (b * z = c * y ∧ y = z ∧ tR < tS)) :
    a * z > c * x ∨ (a * z = c * x ∧ x < z) ∨ (a * z = c * x ∧ x = z ∧ tL < tS) := by
  rcases Nat.eq_zero_or_pos y with hy | hy
  · subst hy
    simp only [Nat.mul_zero, gt_iff_lt, Nat.not_lt_zero, and_false, false_or] at h1 h2
    obtain ⟨h1a, hx, ht⟩ := h1
    subst hx
    simp only [Nat.mul_zero, gt_iff_lt]
    rcases Nat.eq_zero_or_pos z with hz | hz
    · subst hz
      simp only [Nat.mul_zero, Nat.lt_irrefl, and_false, true_and, false_or] at h2 ⊢
      omega
    · rcases Nat.eq_zero_or_pos (a * z) with h | h
      · exact Or.inr (Or.inl ⟨h, hz⟩)
      · exact Or.inl h
  · -- the middle entry has a positive size: compare through `y`
    have key : ∀ {m n : Nat}, m * y < n * y → m < n := fun h => Nat.lt_of_mul_lt_mul_right h
    have e1 : a * z * y = a * y * z := by ring
    have e2 : c * x * y = c * y * x := by ring
    have e3 : b * x * z = b * z * x := by ring
    rcases h1 with h1 | h1
    · -- strictly better price on the left
      have hz : 0 < z := by
        rcases h2 with h2 | h2 | h2
        · exact Nat.pos_of_ne_zero (fun h => by subst h; simp at h2)
        · omega
        · omega
      have hle : c * y ≤ b * z := by rcases h2 with h2 | h2 | h2 <;> omega
      left
      apply key
      calc c * x * y = c * y * x := e2
        _ ≤ b * z * x := Nat.mul_le_mul_right x hle
        _ = b * x * z := e3.symm
        _ < a * y * z := Nat.mul_lt_mul_of_pos_right h1 hz
        _ = a * z * y := e1.symm
    · have hay : a * y = b * x := by rcases h1 with h1 | h1 <;> exact h1.1
      have hxy : x ≤ y := by rcases h1 with h1 | h1 <;> omega
      rcases h2 with h2 | h2
      · rcases Nat.eq_zero_or_pos x with hx | hx
        · subst hx
          have ha : a = 0 := by
            rcases Nat.mul_eq_zero.1 hay with h | h
            · exact h
            · omega
          subst ha
          have hz : 0 < z := Nat.pos_of_ne_zero (fun h => by subst h; simp at h2)
          right; left
          simp [hz]
        · left
          apply key
          calc c * x * y = c * y * x := e2
            _ < b * z * x := Nat.mul_lt_mul_of_pos_right h2 hx
            _ = b * x * z := e3.symm
            _ = a * y * z := by rw [hay]
            _ = a * z * y := e1.symm
      · have hbz : b * z = c * y := by rcases h2 with h2 | h2 <;> exact h2.1
        have heq : a * z = c * x := by
          apply Nat.eq_of_mul_eq_mul_right hy
          calc a * z * y = a * y * z := e1
            _ = b * x * z := by rw [hay]
            _ = b * z * x := e3
            _ = c * y * x := by rw [hbz]
            _ = c * x * y := e2.symm
        right
        rcases h1 with h1 | h1 <;> rcases h2 with h2 | h2
        · left; exact ⟨heq, by omega⟩
        · left; exact ⟨heq, by omega⟩
        · left; exact ⟨heq, by omega⟩
        · right; exact ⟨heq, by omega, by omega⟩

theorem cross_asymm {a b x y : Nat} {tL tR : Int}
    (h1 : a * y > b * x ∨ (a * y = b * x ∧ x < y) ∨ (a * y = b * x ∧ x = y ∧ tL < tR))
    (h2 : b * x > a * y ∨ (b * x = a * y ∧ y < x) ∨ (b * x = a * y ∧ y = x ∧ tR < tL)) :
    False := by
  generalize a * y = p at *
  generalize b * x = q at *
  omega

theorem cross_tied_iff {a b x y : Nat} {tL tR : Int} (hx : 1 ≤ x) (hy : 1 ≤ y) :
    (¬ (a * y > b * x ∨ (a * y = b * x ∧ x < y) ∨ (a * y = b * x ∧ x = y ∧ tL < tR)) ∧
     ¬ (b * x > a * y ∨ (b * x = a * y ∧ y < x) ∨ (b * x = a * y ∧ y = x ∧ tR < tL))) ↔
    (a = b ∧ x = y ∧ tL = tR) := by
  constructor
  · rintro ⟨h1, h2⟩
    have hxy : a * y = b * x ∧ x = y ∧ tL = tR := by
      generalize a * y = p at *
      generalize b * x = q at *
      omega
    obtain ⟨h, e, t⟩ := hxy
    subst e
    exact ⟨Nat.eq_of_mul_eq_mul_right hx h, rfl, t⟩
  · rintro ⟨rfl, rfl, rfl⟩
    omega


/-! ## Order properties of the comparator -/

theorem comparator_false_iff (L R : PoolTransactionDetails) (hL : L.InRange) (hR : R.InRange) :
    TransactionPriorityComparator L R = false ↔
      ¬ (L.fee * R.blobSize > R.fee * L.blobSize ∨
        (L.fee * R.blobSize = R.fee * L.blobSize ∧ L.blobSize < R.blobSize) ∨
        (L.fee * R.blobSize = R.fee * L.blobSize ∧ L.blobSize = R.blobSize ∧
          L.receiveTime < R.receiveTime)) := by
  rw [← comparator_iff L R hL hR, Bool.not_eq_true]

theorem comparator_asymm (L R : PoolTransactionDetails) (hL : L.InRange) (hR : R.InRange)
    (h : TransactionPriorityComparator L R = true) :
    TransactionPriorityComparator R L = false := by
  rw [comparator_false_iff R L hR hL]
  intro h2
  exact cross_asymm ((comparator_iff L R hL hR).1 h) h2

theorem comparator_trans (L R S : PoolTransactionDetails) (hL : L.InRange) (hR : R.InRange)
    (hS : S.InRange) (h1 : TransactionPriorityComparator L R = true)
    (h2 : TransactionPriorityComparator R S = true) :
    TransactionPriorityComparator L S = true :=
  (comparator_iff L S hL hS).2
    (cross_trans ((comparator_iff L R hL hR).1 h1) ((comparator_iff R S hR hS).1 h2))

theorem comparator_irrefl (L : PoolTransactionDetails) (hL : L.InRange) :
    TransactionPriorityComparator L L = false := by
  rw [comparator_false_iff L L hL hL]
  omega

theorem comparator_tied_iff (L R : PoolTransactionDetails) (hL : L.InRange) (hR : R.InRange)
    (hLs : 1 ≤ L.blobSize) (hRs : 1 ≤ R.blobSize) :
    (TransactionPriorityComparator L R = false ∧ TransactionPriorityComparator R L = false) ↔
      (L.fee = R.fee ∧ L.blobSize = R.blobSize ∧ L.receiveTime = R.receiveTime) := by
  rw [comparator_false_iff L R hL hR, comparator_false_iff R L hR hL]
  exact cross_tied_iff hLs hRs

/-! ## The claims about the comparator -/

/-- C1. For entries whose fee and blobSize are `uint64_t` values, the
comparator answers `true` exactly when, with the products taken as exact
integers, `L.fee × R.blobSize > R.fee × L.blobSize`; or the products are equal
and `L.blobSize < R.blobSize`; or the products and the blobSizes are equal and
`L.receiveTime < R.receiveTime`. -/
theorem comparator_spec (L R : PoolTransactionDetails) (hL : L.InRange) (hR : R.InRange) :
    TransactionPriorityComparator L R = true ↔
      (L.fee * R.blobSize > R.fee * L.blobSize ∨
        (L.fee * R.blobSize = R.fee * L.blobSize ∧ L.blobSize < R.blobSize) ∨
        (L.fee * R.blobSize = R.fee * L.blobSize ∧ L.blobSize = R.blobSize ∧
          L.receiveTime < R.receiveTime)) :=
  comparator_iff L R hL hR

/-- Witness for C1: a fee of `2 ^ 63` against a size of `2`, where the product
does not fit 64 bits. -/
theorem comparator_spec_witness :
    TransactionPriorityComparator (mkEntry 1 (2 ^ 63) 1 0) (mkEntry 2 1 2 0) = true ↔
      ((mkEntry 1 (2 ^ 63) 1 0).fee * (mkEntry 2 1 2 0).blobSize >
          (mkEntry 2 1 2 0).fee * (mkEntry 1 (2 ^ 63) 1 0).blobSize ∨
        ((mkEntry 1 (2 ^ 63) 1 0).fee * (mkEntry 2 1 2 0).blobSize =
            (mkEntry 2 1 2 0).fee * (mkEntry 1 (2 ^ 63) 1 0).blobSize ∧
          (mkEntry 1 (2 ^ 63) 1 0).blobSize < (mkEntry 2 1 2 0).blobSize) ∨
        ((mkEntry 1 (2 ^ 63) 1 0).fee * (mkEntry 2 1 2 0).blobSize =
            (mkEntry 2 1 2 0).fee * (mkEntry 1 (2 ^ 63) 1 0).blobSize ∧
          (mkEntry 1 (2 ^ 63) 1 0).blobSize = (mkEntry 2 1 2 0).blobSize ∧
          (mkEntry 1 (2 ^ 63) 1 0).receiveTime < (mkEntry 2 1 2 0).receiveTime)) :=
  comparator_spec (mkEntry 1 (2 ^ 63) 1 0) (mkEntry 2 1 2 0) (by decide) (by decide)

/-- C2. Over entries with blobSize ≥ 1 the comparator is antisymmetric (never
both `L` outranks `R` and `R` outranks `L`) and transitive. The size bound is
the claim's; the proof does not need it. -/
theorem comparator_antisymm_trans (L R S : PoolTransactionDetails)
    (hL : L.InRange) (hR : R.InRange) (hS : S.InRange)
    (_hLs : 1 ≤ L.blobSize) (_hRs : 1 ≤ R.blobSize) (_hSs : 1 ≤ S.blobSize) :
    ¬ (TransactionPriorityComparator L R = true ∧ TransactionPriorityComparator R L = true) ∧
    (TransactionPriorityComparator L R = true → TransactionPriorityComparator R S = true →
      TransactionPriorityComparator L S = true) := by
  refine ⟨?_, comparator_trans L R S hL hR hS⟩
  rintro ⟨h1, h2⟩
  rw [comparator_asymm L R hL hR h1] at h2
  exact Bool.noConfusion h2

/-- Witness for C2: three entries of decreasing price. -/
theorem comparator_antisymm_trans_witness :
    ¬ (TransactionPriorityComparator (mkEntry 3 200 50 9) (mkEntry 2 200 100 8) = true ∧
        TransactionPriorityComparator (mkEntry 2 200 100 8) (mkEntry 3 200 50 9) = true) ∧
    (TransactionPriorityComparator (mkEntry 3 200 50 9) (mkEntry 2 200 100 8) = true →
      TransactionPriorityComparator (mkEntry 2 200 100 8) (mkEntry 1 100 100 7) = true →
      TransactionPriorityComparator (mkEntry 3 200 50 9) (mkEntry 1 100 100 7) = true) :=
  comparator_antisymm_trans (mkEntry 3 200 50 9) (mkEntry 2 200 100 8) (mkEntry 1 100 100 7)
    (by decide) (by decide) (by decide) (by decide) (by decide) (by decide)

/-- C3, counterexample. Two entries with different ids and the same fee,
blobSize and receiveTime: neither outranks the other. -/
theorem comparator_not_total :
    (mkEntry 1 100 100 5).id ≠ (mkEntry 2 100 100 5).id ∧
    (mkEntry 1 100 100 5).InRange ∧ (mkEntry 2 100 100 5).InRange ∧
    TransactionPriorityComparator (mkEntry 1 100 100 5) (mkEntry 2 100 100 5) = false ∧
    TransactionPriorityComparator (mkEntry 2 100 100 5) (mkEntry 1 100 100 5) = false := by
  decide

/-- C3, amended. For two entries with blobSize ≥ 1, exactly one of them
outranks the other if and only if they differ in fee, blobSize or receiveTime;
entries equal in all three are tied whatever their ids. -/
theorem comparator_total_up_to_ties (L R : PoolTransactionDetails)
    (hL : L.InRange) (hR : R.InRange) (hLs : 1 ≤ L.blobSize) (hRs : 1 ≤ R.blobSize) :
    (((TransactionPriorityComparator L R = true ∧ TransactionPriorityComparator R L = false) ∨
      (TransactionPriorityComparator L R = false ∧ TransactionPriorityComparator R L = true)) ↔
      (L.fee ≠ R.fee ∨ L.blobSize ≠ R.blobSize ∨ L.receiveTime ≠ R.receiveTime)) ∧
    ((L.fee = R.fee ∧ L.blobSize = R.blobSize ∧ L.receiveTime = R.receiveTime) →
      TransactionPriorityComparator L R = false ∧ TransactionPriorityComparator R L = false) := by
  have htie := comparator_tied_iff L R hL hR hLs hRs
  have h1 := comparator_asymm L R hL hR
  have h2 := comparator_asymm R L hR hL
  refine ⟨?_, htie.2⟩
  constructor
  · intro h
    by_contra hne
    have heq : L.fee = R.fee ∧ L.blobSize = R.blobSize ∧ L.receiveTime = R.receiveTime := by
      refine ⟨?_, ?_, ?_⟩ <;> by_contra hc <;> simp [hc] at hne
    have := htie.2 heq
    rcases h with h | h
    · rw [this.1] at h; exact Bool.noConfusion h.1
    · rw [this.2] at h; exact Bool.noConfusion h.2
  · intro hne
    cases hLR : TransactionPriorityComparator L R
    · cases hRL : TransactionPriorityComparator R L
      · exfalso
        obtain ⟨e1, e2, e3⟩ := htie.1 ⟨hLR, hRL⟩
        rcases hne with h | h | h
        · exact h e1
        · exact h e2
        · exact h e3
      · exact Or.inr ⟨rfl, rfl⟩
    · exact Or.inl ⟨rfl, h1 hLR⟩

/-- Witness for C3 (amended): two entries that differ in receiveTime only. -/
theorem comparator_total_up_to_ties_witness :
    TransactionPriorityComparator (mkEntry 1 100 100 5) (mkEntry 2 100 100 6) = true ∧
    TransactionPriorityComparator (mkEntry 2 100 100 6) (mkEntry 1 100 100 5) = false := by
  have h := (comparator_total_up_to_ties (mkEntry 1 100 100 5) (mkEntry 2 100 100 6)
    (by decide) (by decide) (by decide) (by decide)).1.2 (Or.inr (Or.inr (by decide)))
  rcases h with h | h
  · exact h
  · exact absurd h.1 (by decide)

/-- C4. For entries with `uint64_t` fee and blobSize and blobSize ≥ 1: if
`L.fee / L.blobSize > R.fee / R.blobSize` as exact rationals, the comparator
reports that `L` outranks `R` and that `R` does not outrank `L`; and the
`(hi, lo)` comparison of the two `mul128` results agrees with the comparison of
the exact products. -/
theorem higher_fee_per_byte_wins (L R : PoolTransactionDetails)
    (hL : L.InRange) (hR : R.InRange) (hLs : 1 ≤ L.blobSize) (hRs : 1 ≤ R.blobSize) :
    ((L.fee : ℚ) / (L.blobSize : ℚ) > (R.fee : ℚ) / (R.blobSize : ℚ) →
      TransactionPriorityComparator L R = true ∧ TransactionPriorityComparator R L = false) ∧
    (((mul128 L.fee R.blobSize).1 > (mul128 R.fee L.blobSize).1 ∨
      ((mul128 L.fee R.blobSize).1 = (mul128 R.fee L.blobSize).1 ∧
        (mul128 L.fee R.blobSize).2 > (mul128 R.fee L.blobSize).2)) ↔
      L.fee * R.blobSize > R.fee * L.blobSize) := by
  constructor
  · intro h
    have hx : (0 : ℚ) < (L.blobSize : ℚ) := by exact_mod_cast hLs
    have hy : (0 : ℚ) < (R.blobSize : ℚ) := by exact_mod_cast hRs
    have hq : (R.fee : ℚ) * (L.blobSize : ℚ) < (L.fee : ℚ) * (R.blobSize : ℚ) :=
      (div_lt_div_iff₀ hy hx).1 h
    have hn : R.fee * L.blobSize < L.fee * R.blobSize := by exact_mod_cast hq
    have hwin : TransactionPriorityComparator L R = true :=
      (comparator_iff L R hL hR).2 (Or.inl hn)
    exact ⟨hwin, comparator_asymm L R hL hR hwin⟩
  · exact hi_lo_gt_iff (u64_mul_lt hL.1 hR.2) (u64_mul_lt hR.1 hL.2)

/-- Witness for C4: `L` = (fee `2 ^ 63`, size 1) against `R` = (fee 1, size 2).
The product `2 ^ 63 × 2` is `0` modulo `2 ^ 64`, yet `L` outranks `R`. -/
theorem higher_fee_per_byte_wins_witness :
    (2 ^ 63 * 2) % 2 ^ 64 = 0 ∧
    TransactionPriorityComparator (mkEntry 1 (2 ^ 63) 1 0) (mkEntry 2 1 2 0) = true ∧
    TransactionPriorityComparator (mkEntry 2 1 2 0) (mkEntry 1 (2 ^ 63) 1 0) = false :=
  ⟨by decide,
    (higher_fee_per_byte_wins (mkEntry 1 (2 ^ 63) 1 0) (mkEntry 2 1 2 0)
      (by decide) (by decide) (by decide) (by decide)).1 (by norm_num [mkEntry])⟩

/-- C8. The comparator is irreflexive, and for entries with blobSize ≥ 1 two
entries are tied (neither outranks the other) exactly when they have the same
fee, blobSize and receiveTime; hence being tied is transitive. -/
theorem comparator_strict_weak (L R S : PoolTransactionDetails)
    (hL : L.InRange) (hR : R.InRange) (hS : S.InRange)
    (hLs : 1 ≤ L.blobSize) (hRs : 1 ≤ R.blobSize) (hSs : 1 ≤ S.blobSize) :
    TransactionPriorityComparator L L = false ∧
    ((TransactionPriorityComparator L R = false ∧ TransactionPriorityComparator R L = false) ↔
      (L.fee = R.fee ∧ L.blobSize = R.blobSize ∧ L.receiveTime = R.receiveTime)) ∧
    ((TransactionPriorityComparator L R = false ∧ TransactionPriorityComparator R L = false) →
      (TransactionPriorityComparator R S = false ∧ TransactionPriorityComparator S R = false) →
      (TransactionPriorityComparator L S = false ∧ TransactionPriorityComparator S L = false)) := by
  refine ⟨comparator_irrefl L hL, comparator_tied_iff L R hL hR hLs hRs, ?_⟩
  intro h1 h2
  obtain ⟨a1, a2, a3⟩ := (comparator_tied_iff L R hL hR hLs hRs).1 h1
  obtain ⟨b1, b2, b3⟩ := (comparator_tied_iff R S hR hS hRs hSs).1 h2
  exact (comparator_tied_iff L S hL hS hLs hSs).2 ⟨a1.trans b1, a2.trans b2, a3.trans b3⟩

/-- Witness for C8: three entries that differ in id only. -/
theorem comparator_strict_weak_witness :
    TransactionPriorityComparator (mkEntry 1 100 100 5) (mkEntry 1 100 100 5) = false ∧
    ((TransactionPriorityComparator (mkEntry 1 100 100 5) (mkEntry 2 100 100 5) = false ∧
        TransactionPriorityComparator (mkEntry 2 100 100 5) (mkEntry 1 100 100 5) = false) ↔
      ((mkEntry 1 100 100 5).fee = (mkEntry 2 100 100 5).fee ∧
        (mkEntry 1 100 100 5).blobSize = (mkEntry 2 100 100 5).blobSize ∧
        (mkEntry 1 100 100 5).receiveTime = (mkEntry 2 100 100 5).receiveTime)) ∧
    ((TransactionPriorityComparator (mkEntry 1 100 100 5) (mkEntry 2 100 100 5) = false ∧
        TransactionPriorityComparator (mkEntry 2 100 100 5) (mkEntry 1 100 100 5) = false) →
      (TransactionPriorityComparator (mkEntry 2 100 100 5) (mkEntry 3 100 100 5) = false ∧
        TransactionPriorityComparator (mkEntry 3 100 100 5) (mkEntry 2 100 100 5) = false) →
      (TransactionPriorityComparator (mkEntry 1 100 100 5) (mkEntry 3 100 100 5) = false ∧
        TransactionPriorityComparator (mkEntry 3 100 100 5) (mkEntry 1 100 100 5) = false)) :=
  comparator_strict_weak (mkEntry 1 100 100 5) (mkEntry 2 100 100 5) (mkEntry 3 100 100 5)
    (by decide) (by decide) (by decide) (by decide) (by decide) (by decide)


/-! ## The pool container: order and membership of the priority index -/

theorem orderedInsert_perm (x : PoolTransactionDetails) (l : List PoolTransactionDetails) :
    List.Perm (tx_container_t.orderedInsert x l) (x :: l) := by
  induction l with
  | nil => exact List.Perm.refl _
  | cons y ys ih =>
    unfold tx_container_t.orderedInsert
    split
    · exact List.Perm.refl _
    · exact ((List.Perm.cons y ih).trans (List.Perm.swap x y ys))

theorem mem_orderedInsert {e x : PoolTransactionDetails} {l : List PoolTransactionDetails} :
    e ∈ tx_container_t.orderedInsert x l ↔ e = x ∨ e ∈ l := by
  rw [(orderedInsert_perm x l).mem_iff, List.mem_cons]

/-- Inserting into a descending sequence of in-range entries leaves it
descending: nothing later in the sequence outranks anything earlier. -/
theorem orderedInsert_descending (x : PoolTransactionDetails) (hx : x.InRange) :
    ∀ l : List PoolTransactionDetails, (∀ e ∈ l, e.InRange) →
      List.Pairwise (fun earlier later => TransactionPriorityComparator later earlier = false) l →
      List.Pairwise (fun earlier later => TransactionPriorityComparator later earlier = false)
        (tx_container_t.orderedInsert x l) := by
  intro l
  induction l with
  | nil => intro _ _; simp [tx_container_t.orderedInsert]
  | cons y ys ih =>
    intro hr hp
    have hy : y.InRange := hr y (List.mem_cons_self y ys)
    have hys : ∀ e ∈ ys, e.InRange := fun e he => hr e (List.mem_cons_of_mem y he)
    obtain ⟨hhead, htail⟩ := List.pairwise_cons.1 hp
    unfold tx_container_t.orderedInsert
    split
    · next hxy =>
      refine List.pairwise_cons.2 ⟨?_, hp⟩
      intro b hb
      rcases List.mem_cons.1 hb with rfl | hb
      · exact comparator_asymm x b hx hy hxy
      · cases hbx : TransactionPriorityComparator b x
        · rfl
        · have hby := comparator_trans b x y (hys b hb) hx hy hbx hxy
          rw [hhead b hb] at hby
          exact Bool.noConfusion hby
    · next hxy =>
      refine List.pairwise_cons.2 ⟨?_, ih hys htail⟩
      intro b hb
      rcases mem_orderedInsert.1 hb with rfl | hb
      · simpa using hxy
      · exact hhead b hb

theorem feeIndexOk_insert (c : tx_container_t) (x : PoolTransactionDetails) (hx : x.InRange)
    (hc : FeeIndexOk c) : FeeIndexOk (c.insert x) := by
  unfold tx_container_t.insert
  split
  · exact hc
  · refine ⟨?_, orderedInsert_descending x hx c.fee_index hc.1 hc.2⟩
    intro e he
    rcases mem_orderedInsert.1 he with rfl | he
    · exact hx
    · exact hc.1 e he

theorem feeIndexOk_erase (c : tx_container_t) (id : Hash) (hc : FeeIndexOk c) :
    FeeIndexOk (c.erase id) := by
  refine ⟨?_, List.Pairwise.filter _ hc.2⟩
  intro e he
  exact hc.1 e (List.mem_filter.1 he).1

theorem feeIndexOk_foldl (ops : List PoolOp) :
    ∀ c : tx_container_t, FeeIndexOk c → (∀ op ∈ ops, op.InRange) →
      FeeIndexOk (ops.foldl tx_container_t.apply c) := by
  induction ops with
  | nil => intro c hc _; exact hc
  | cons op rest ih =>
    intro c hc hops
    rw [List.foldl_cons]
    apply ih
    · cases op with
      | insert x => exact feeIndexOk_insert c x (hops (.insert x) (List.mem_cons_self _ _)) hc
      | erase id => exact feeIndexOk_erase c id hc
    · intro o ho
      exact hops o (List.mem_cons_of_mem _ ho)

theorem indices_perm_foldl (ops : List PoolOp) :
    ∀ c : tx_container_t, List.Perm c.fee_index c.main_index →
      List.Perm (ops.foldl tx_container_t.apply c).fee_index
        (ops.foldl tx_container_t.apply c).main_index := by
  induction ops with
  | nil => intro c hc; exact hc
  | cons op rest ih =>
    intro c hc
    rw [List.foldl_cons]
    apply ih
    cases op with
    | insert x =>
      show List.Perm (c.insert x).fee_index (c.insert x).main_index
      unfold tx_container_t.insert
      split
      · exact hc
      · exact ((orderedInsert_perm x c.fee_index).trans (List.Perm.cons x hc)).trans
          (List.perm_append_singleton x c.main_index).symm
    | erase id => exact List.Perm.filter _ hc

/-- C5. Traversing the priority index from its beginning visits the stored
entries in descending priority: after any sequence of insertions and removals
of in-range entries, no entry later in the traversal outranks an earlier one.
For the three entries `(100,100,t0)`, `(200,100,t1)`, `(200,50,t2)` with
`t0 < t1 < t2`, each of the six insertion orders gives the traversal
`tx3, tx2, tx1`. -/
theorem fee_index_descending (ops : List PoolOp)
    (hops : ∀ op ∈ ops, op.InRange)
    (t0 t1 t2 : Int) (_h01 : t0 < t1) (_h12 : t1 < t2) :
    List.Pairwise (fun earlier later => TransactionPriorityComparator later earlier = false)
      (tx_container_t.run ops).fee_index ∧
    (tx_container_t.run [.insert (tx1 t0), .insert (tx2 t1), .insert (tx3 t2)]).fee_index =
      [tx3 t2, tx2 t1, tx1 t0] ∧
    (tx_container_t.run [.insert (tx1 t0), .insert (tx3 t2), .insert (tx2 t1)]).fee_index =
      [tx3 t2, tx2 t1, tx1 t0] ∧
    (tx_container_t.run [.insert (tx2 t1), .insert (tx1 t0), .insert (tx3 t2)]).fee_index =
      [tx3 t2, tx2 t1, tx1 t0] ∧
    (tx_container_t.run [.insert (tx2 t1), .insert (tx3 t2), .insert (tx1 t0)]).fee_index =
      [tx3 t2, tx2 t1, tx1 t0] ∧
    (tx_container_t.run [.insert (tx3 t2), .insert (tx1 t0), .insert (tx2 t1)]).fee_index =
      [tx3 t2, tx2 t1, tx1 t0] ∧
    (tx_container_t.run [.insert (tx3 t2), .insert (tx2 t1), .insert (tx1 t0)]).fee_index =
      [tx3 t2, tx2 t1, tx1 t0] := by
  refine ⟨(feeIndexOk_foldl ops tx_container_t.empty ⟨by simp [tx_container_t.empty],
    by simp [tx_container_t.empty]⟩ hops).2, ?_, ?_, ?_, ?_, ?_, ?_⟩ <;>
  simp [tx_container_t.run, tx_container_t.apply, tx_container_t.insert, tx_container_t.find,
    tx_container_t.empty, tx_container_t.orderedInsert, TransactionPriorityComparator, mul128,
    tx1, tx2, tx3, mkEntry]

/-- Witness for C5: scenario 3 followed by the removal of `tx2` and the arrival
of an entry tied with `tx1`. -/
theorem fee_index_descending_witness :
    (tx_container_t.run [.insert (tx1 10), .insert (tx2 20), .insert (tx3 30), .erase 2,
      .insert (mkEntry 4 100 100 10)]).fee_index = [tx3 30, tx1 10, mkEntry 4 100 100 10] ∧
    List.Pairwise (fun earlier later => TransactionPriorityComparator later earlier = false)
      (tx_container_t.run [.insert (tx1 10), .insert (tx2 20), .insert (tx3 30), .erase 2,
        .insert (mkEntry 4 100 100 10)]).fee_index :=
  ⟨by decide,
    (fee_index_descending [.insert (tx1 10), .insert (tx2 20), .insert (tx3 30), .erase 2,
      .insert (mkEntry 4 100 100 10)] (by decide) 10 20 30 (by decide) (by decide)).1⟩

/-- C7. After every sequence of insertions and removals the entries enumerated
by the priority index are a permutation of those enumerated by the id-keyed
index; entries tied on priority are all kept, as the two tied entries of the
second part are. -/
theorem fee_index_perm_main_index (ops : List PoolOp) :
    List.Perm (tx_container_t.run ops).fee_index (tx_container_t.run ops).main_index ∧
    (tx_container_t.run [.insert (mkEntry 1 100 100 5), .insert (mkEntry 2 100 100 5)]).fee_index
      = [mkEntry 1 100 100 5, mkEntry 2 100 100 5] :=
  ⟨indices_perm_foldl ops tx_container_t.empty (List.Perm.refl _), by decide⟩


/-! ## `getTransactions` -/

theorem getTransactions_eq (self : tx_memory_pool) (txsIds : List Hash) :
    ∀ (txs : List Transaction) (missedTxs : List Hash),
      self.getTransactions txsIds txs missedTxs =
        (self,
          txs ++ txsIds.filterMap (fun id => (self.m_transactions.find id).map (fun it => it.tx)),
          missedTxs ++ txsIds.filter (fun id => (self.m_transactions.find id).isNone)) := by
  induction txsIds with
  | nil => intro txs missedTxs; simp [tx_memory_pool.getTransactions]
  | cons id rest ih =>
    intro txs missedTxs
    unfold tx_memory_pool.getTransactions
    cases h : self.m_transactions.find id with
    | none => simp [ih, h]
    | some it => simp [ih, h]

theorem length_filterMap_add_filter (self : tx_memory_pool) (txsIds : List Hash) :
    (txsIds.filterMap
        (fun id => (self.m_transactions.find id).map (fun it => it.tx))).length +
      (txsIds.filter (fun id => (self.m_transactions.find id).isNone)).length =
      txsIds.length := by
  induction txsIds with
  | nil => rfl
  | cons id rest ih =>
    cases h : self.m_transactions.find id with
    | none => simp [List.filterMap_cons, List.filter_cons, h]; omega
    | some it => simp [List.filterMap_cons, List.filter_cons, h]; omega

/-- C10. `getTransactions` splits the request: in request order, duplicates
included, every id found in the primary store appends the stored body to
`txs` and every other id appends itself to `missedTxs`; the two outputs grow
by as many elements as there are requested ids, and the pool is unchanged.
The last part ties the lookup to membership in the primary store. -/
theorem getTransactions_partition (self : tx_memory_pool) (txsIds : List Hash)
    (txs : List Transaction) (missedTxs : List Hash) :
    (self.getTransactions txsIds txs missedTxs).1 = self ∧
    (self.getTransactions txsIds txs missedTxs).2.1 =
      txs ++ txsIds.filterMap (fun id => (self.m_transactions.find id).map (fun it => it.tx)) ∧
    (self.getTransactions txsIds txs missedTxs).2.2 =
      missedTxs ++ txsIds.filter (fun id => (self.m_transactions.find id).isNone) ∧
    (self.getTransactions txsIds txs missedTxs).2.1.length +
        (self.getTransactions txsIds txs missedTxs).2.2.length =
      txs.length + missedTxs.length + txsIds.length ∧
    (∀ id : Hash,
      (self.m_transactions.find id = none ↔ ∀ e ∈ self.m_transactions.main_index, e.id ≠ id) ∧
      (∀ it, self.m_transactions.find id = some it →
        it ∈ self.m_transactions.main_index ∧ it.id = id)) := by
  rw [getTransactions_eq]
  refine ⟨rfl, rfl, rfl, ?_, ?_⟩
  · have h := length_filterMap_add_filter self txsIds
    simp only [List.length_append]
    omega
  · intro id
    constructor
    · simp [tx_container_t.find, List.find?_eq_none]
    · intro it hit
      have h1 := List.mem_of_find?_eq_some hit
      have h2 := List.find?_some hit
      exact ⟨h1, by simpa using h2⟩

/-! ## The rate limiter -/

theorem wrapInt64_of_fits {x : Int} (h : -2 ^ 63 ≤ x ∧ x < 2 ^ 63) : wrapInt64 x = x := by
  unfold wrapInt64
  omega

/-- A wrapped difference that exceeds a non-negative bound was produced by an
exact difference that exceeds it, when the exact difference is not negative. -/
theorem lt_of_lt_wrapInt64 {d i : Int} (hd : 0 ≤ d) (hi : 0 ≤ i) (h : wrapInt64 d > i) :
    d > i := by
  unfold wrapInt64 at h
  omega

/-- What holds between calls of a limiter run under the clock `clock`: every
logged execution started after a reading, returned before the next reading to
come, the reading recorded after it is not later than the stored last-worked
time, which in turn is not later than the next reading to come; and any two
logged executions are more than `interval` apart. -/
theorem call_preserves (clock : Nat → Int) (hmono : Monotone clock) (res : Bool) (k : Nat)
    (o : OnceInTimeInterval) (w : ClockWorld)
    (hlog : ∀ e ∈ w.ran, 1 ≤ e.1 ∧ e.1 ≤ e.2 ∧ e.2 < w.tick ∧
      clock e.2 ≤ o.m_lastWorkedTime ∧ o.m_lastWorkedTime ≤ clock w.tick)
    (hsep : List.Pairwise (fun a b => clock (b.1 - 1) - clock a.2 > (o.m_interval : Int)) w.ran) :
    (o.call (clockProvider clock) (work res k) w).2.1.m_interval = o.m_interval ∧
    (∀ e ∈ (o.call (clockProvider clock) (work res k) w).2.2.ran,
      1 ≤ e.1 ∧ e.1 ≤ e.2 ∧ e.2 < (o.call (clockProvider clock) (work res k) w).2.2.tick ∧
        clock e.2 ≤ (o.call (clockProvider clock) (work res k) w).2.1.m_lastWorkedTime ∧
        (o.call (clockProvider clock) (work res k) w).2.1.m_lastWorkedTime ≤
          clock (o.call (clockProvider clock) (work res k) w).2.2.tick) ∧
    List.Pairwise (fun a b => clock (b.1 - 1) - clock a.2 > (o.m_interval : Int))
      (o.call (clockProvider clock) (work res k) w).2.2.ran := by
  unfold OnceInTimeInterval.call
  by_cases hc : wrapInt64 (clock w.tick - o.m_lastWorkedTime) > (o.m_interval : Int)
  · simp only [clockProvider, work, hc, if_true]
    have hle : clock w.tick ≤ clock (w.tick + 1 + k) := hmono (by omega)
    have hnext : clock (w.tick + 1 + k) ≤ clock (w.tick + 1 + k + 1) := hmono (by omega)
    refine ⟨trivial, ?_, ?_⟩
    · intro e he
      rcases List.mem_append.1 he with he | he
      · obtain ⟨a, b, c, d, f⟩ := hlog e he
        exact ⟨a, b, by omega, by omega, hnext⟩
      · rw [List.mem_singleton] at he
        subst he
        exact ⟨by simp, by simp, by simp, le_refl _, hnext⟩
    · refine List.pairwise_append.2 ⟨hsep, List.pairwise_singleton _ _, ?_⟩
      intro a ha b hb
      rw [List.mem_singleton] at hb
      subst hb
      obtain ⟨_, _, _, d, f⟩ := hlog a ha
      have hgap : clock w.tick - o.m_lastWorkedTime > (o.m_interval : Int) :=
        lt_of_lt_wrapInt64 (by omega) (Int.natCast_nonneg _) hc
      simp only [Nat.add_sub_cancel]
      omega
  · simp only [clockProvider, work, hc, if_false]
    have hnext : clock w.tick ≤ clock (w.tick + 1) := hmono (by omega)
    refine ⟨trivial, ?_, hsep⟩
    intro e he
    obtain ⟨a, b, c, d, f⟩ := hlog e he
    exact ⟨a, b, by omega, d, by omega⟩

theorem runCalls_preserves (clock : Nat → Int) (hmono : Monotone clock) (interval : Nat)
    (calls : List (Bool × Nat)) :
    ∀ (o : OnceInTimeInterval) (w : ClockWorld), o.m_interval = interval →
      (∀ e ∈ w.ran, 1 ≤ e.1 ∧ e.1 ≤ e.2 ∧ e.2 < w.tick ∧
        clock e.2 ≤ o.m_lastWorkedTime ∧ o.m_lastWorkedTime ≤ clock w.tick) →
      List.Pairwise (fun a b => clock (b.1 - 1) - clock a.2 > (interval : Int)) w.ran →
      (∀ e ∈ (runCalls clock calls o w).2.ran, 1 ≤ e.1 ∧ e.1 ≤ e.2) ∧
      List.Pairwise (fun a b => clock (b.1 - 1) - clock a.2 > (interval : Int))
        (runCalls clock calls o w).2.ran := by
  induction calls with
  | nil =>
    intro o w _ hlog hsep
    exact ⟨fun e he => ⟨(hlog e he).1, (hlog e he).2.1⟩, hsep⟩
  | cons c rest ih =>
    intro o w hi hlog hsep
    obtain ⟨res, k⟩ := c
    subst hi
    obtain ⟨h1, h2, h3⟩ := call_preserves clock hmono res k o w hlog hsep
    exact ih _ _ h1 h2 h3

/-- One call keeps the stored last-worked time either at its initial `0` or
between `0` and the next reading to come, under a clock whose readings never
decrease and are `time_t` values. -/
theorem call_keeps_last_behind (clock : Nat → Int) (hmono : Monotone clock)
    (hrange : ∀ n, -2 ^ 63 ≤ clock n ∧ clock n < 2 ^ 63) (res : Bool) (k : Nat)
    (o : OnceInTimeInterval) (w : ClockWorld)
    (h : o.m_lastWorkedTime = 0 ∨
      (0 ≤ o.m_lastWorkedTime ∧ o.m_lastWorkedTime ≤ clock w.tick)) :
    (o.call (clockProvider clock) (work res k) w).2.1.m_lastWorkedTime = 0 ∨
      (0 ≤ (o.call (clockProvider clock) (work res k) w).2.1.m_lastWorkedTime ∧
        (o.call (clockProvider clock) (work res k) w).2.1.m_lastWorkedTime ≤
          clock (o.call (clockProvider clock) (work res k) w).2.2.tick) := by
  unfold OnceInTimeInterval.call
  by_cases hc : wrapInt64 (clock w.tick - o.m_lastWorkedTime) > (o.m_interval : Int)
  · simp only [clockProvider, work, hc, if_true]
    have hle : clock w.tick ≤ clock (w.tick + 1 + k) := hmono (by omega)
    have hnext : clock (w.tick + 1 + k) ≤ clock (w.tick + 1 + k + 1) := hmono (by omega)
    have hr := hrange w.tick
    have hi : (0 : Int) ≤ (o.m_interval : Int) := Int.natCast_nonneg _
    right
    refine ⟨?_, hnext⟩
    rcases h with h | h
    · rw [h, sub_zero, wrapInt64_of_fits hr] at hc
      omega
    · omega
  · simp only [clockProvider, work, hc, if_false]
    have hnext : clock w.tick ≤ clock (w.tick + 1) := hmono (by omega)
    rcases h with h | h
    · exact Or.inl h
    · exact Or.inr ⟨h.1, by omega⟩

/-- In a run from construction under a clock whose readings never decrease and
are `time_t` values, the difference the next call computes fits 64 bits: the
subtraction in `call` never overflows on such a run. -/
theorem runCalls_difference_fits (clock : Nat → Int) (hmono : Monotone clock)
    (hrange : ∀ n, -2 ^ 63 ≤ clock n ∧ clock n < 2 ^ 63) (interval : Nat)
    (calls : List (Bool × Nat)) :
    -2 ^ 63 ≤ clock (runCalls clock calls (OnceInTimeInterval.init interval) ⟨0, []⟩).2.tick -
        (runCalls clock calls (OnceInTimeInterval.init interval) ⟨0, []⟩).1.m_lastWorkedTime ∧
      clock (runCalls clock calls (OnceInTimeInterval.init interval) ⟨0, []⟩).2.tick -
        (runCalls clock calls (OnceInTimeInterval.init interval) ⟨0, []⟩).1.m_lastWorkedTime <
          2 ^ 63 := by
  have key : ∀ (cs : List (Bool × Nat)) (o : OnceInTimeInterval) (w : ClockWorld),
      (o.m_lastWorkedTime = 0 ∨ (0 ≤ o.m_lastWorkedTime ∧ o.m_lastWorkedTime ≤ clock w.tick)) →
      ((runCalls clock cs o w).1.m_lastWorkedTime = 0 ∨
        (0 ≤ (runCalls clock cs o w).1.m_lastWorkedTime ∧
          (runCalls clock cs o w).1.m_lastWorkedTime ≤ clock (runCalls clock cs o w).2.tick)) := by
    intro cs
    induction cs with
    | nil => intro o w h; exact h
    | cons c rest ih =>
      intro o w h
      obtain ⟨res, k⟩ := c
      exact ih _ _ (call_keeps_last_behind clock hmono hrange res k o w h)
  have h := key calls (OnceInTimeInterval.init interval) ⟨0, []⟩ (Or.inl rfl)
  have hr := hrange (runCalls clock calls (OnceInTimeInterval.init interval) ⟨0, []⟩).2.tick
  rcases h with h | h
  · rw [h]; omega
  · omega

/-- C6. Under a clock whose readings never decrease, in every sequence of
`call` invocations on a limiter from its construction, any two executions of
the functor are more than `interval` apart: the reading at which the later one
is started (the reading just before its start tick) exceeds the reading
recorded after the earlier one (the reading at its return tick) by more than
`interval`. Every logged start tick follows a reading, so `b.1 - 1` is the
index of that reading. -/
theorem executions_separated (clock : Nat → Int) (hmono : Monotone clock) (interval : Nat)
    (calls : List (Bool × Nat)) :
    List.Pairwise (fun a b => clock (b.1 - 1) - clock a.2 > (interval : Int))
      (runCalls clock calls (OnceInTimeInterval.init interval) ⟨0, []⟩).2.ran ∧
    (∀ e ∈ (runCalls clock calls (OnceInTimeInterval.init interval) ⟨0, []⟩).2.ran,
      1 ≤ e.1 ∧ e.1 ≤ e.2) := by
  have h := runCalls_preserves clock hmono interval calls (OnceInTimeInterval.init interval)
    ⟨0, []⟩ rfl (by simp) (by simp)
  exact ⟨h.2, h.1⟩

set_option maxRecDepth 100000 in
/-- Witness for C6: a clock that advances 100 per reading, an interval of 150,
eight calls; three of them execute their functor. -/
theorem executions_separated_witness :
    (runCalls steadyClock
      [(true, 0), (true, 0), (false, 1), (true, 0), (true, 3), (true, 0), (true, 0), (true, 0)]
      (OnceInTimeInterval.init 150) ⟨0, []⟩).2.ran = [(3, 4), (7, 10), (13, 13)] ∧
    List.Pairwise (fun a b => steadyClock (b.1 - 1) - steadyClock a.2 > ((150 : Nat) : Int))
      (runCalls steadyClock
        [(true, 0), (true, 0), (false, 1), (true, 0), (true, 3), (true, 0), (true, 0), (true, 0)]
        (OnceInTimeInterval.init 150) ⟨0, []⟩).2.ran :=
  ⟨by decide,
    (executions_separated steadyClock
      (fun a b hab => by
        have h : (a : Int) ≤ (b : Int) := by exact_mod_cast hab
        show 100 * (a : Int) ≤ 100 * (b : Int)
        omega)
      150
      [(true, 0), (true, 0), (false, 1), (true, 0), (true, 3), (true, 0), (true, 0),
        (true, 0)]).1⟩

/-- C9, counterexample. With last-worked time `1`, interval `60` and a reading
of `-2 ^ 63` at entry, the exact difference `now - last` is not above the
interval, yet the functor is executed, `call` returns the functor's `false`
and the last-worked time becomes the reading taken afterwards: the 64-bit
subtraction overflows. The second part reaches that state from construction,
through the readings `100`, `1`, `-2 ^ 63`, `5` of `jumpingClock`: both calls
execute their functor. -/
theorem call_overflow_runs :
    ¬ ((-2 ^ 63 : Int) - 1 > ((60 : Nat) : Int)) ∧
    (OnceInTimeInterval.call { m_lastWorkedTime := 1, m_interval := 60 }
        (clockProvider jumpingClock) (work false 0) ⟨2, []⟩ =
      (false, { m_lastWorkedTime := 5, m_interval := 60 }, ⟨4, [(3, 3)]⟩)) ∧
    (OnceInTimeInterval.call { m_lastWorkedTime := 1, m_interval := 60 }
        (clockProvider jumpingClock).withCounter (countExecutions (work false 0))
        (⟨2, []⟩, 0)).2.2.2 = 1 ∧
    runCalls jumpingClock [(false, 0), (false, 0)] (OnceInTimeInterval.init 60) ⟨0, []⟩ =
      ({ m_lastWorkedTime := 5, m_interval := 60 }, ⟨4, [(1, 1), (3, 3)]⟩) := by
  decide

/-- C9, amended. `call` reads the clock once at entry. Provided the difference
between that reading and the stored last-worked time fits a 64-bit signed
integer: if the difference exceeds the interval strictly, the functor runs
exactly once, `call` returns the functor's result, and the last-worked time
becomes the reading taken after the functor returned; otherwise (equality
included) the functor does not run, `call` returns `true` and the limiter is
unchanged. A new limiter has last-worked time `0`. The number of executions is
read off the counter of `countExecutions`. -/
theorem call_spec {σ : Type} (self : OnceInTimeInterval) (tp : ITimeProvider σ)
    (functr : σ → Bool × σ) (w : σ) (n : Nat)
    (hfit : -2 ^ 63 ≤ (tp.now w).1 - self.m_lastWorkedTime ∧
      (tp.now w).1 - self.m_lastWorkedTime < 2 ^ 63) :
    (OnceInTimeInterval.init self.m_interval).m_lastWorkedTime = 0 ∧
    ((tp.now w).1 - self.m_lastWorkedTime > (self.m_interval : Int) →
      self.call tp functr w =
        ((functr (tp.now w).2).1,
          { self with m_lastWorkedTime := (tp.now (functr (tp.now w).2).2).1 },
          (tp.now (functr (tp.now w).2).2).2) ∧
      (self.call tp.withCounter (countExecutions functr) (w, n)).2.2.2 = n + 1) ∧
    (¬ ((tp.now w).1 - self.m_lastWorkedTime > (self.m_interval : Int)) →
      self.call tp functr w = (true, self, (tp.now w).2) ∧
      (self.call tp.withCounter (countExecutions functr) (w, n)).2.2.2 = n) := by
  have hw := wrapInt64_of_fits hfit
  refine ⟨rfl, ?_, ?_⟩
  · intro h
    simp [OnceInTimeInterval.call, ITimeProvider.withCounter, countExecutions, hw, h]
  · intro h
    simp [OnceInTimeInterval.call, ITimeProvider.withCounter, countExecutions, hw, h]

/-- Witness for C9 (amended): interval 60, a first reading of 100 and a second
of 105, a functor that returns `false`; and the boundary case of a first
reading equal to the interval. -/
theorem call_spec_witness :
    (OnceInTimeInterval.init 60).call (clockProvider (fun n => 100 + 5 * (n : Int)))
        (work false 0) ⟨0, []⟩ =
      (false, { m_lastWorkedTime := 105, m_interval := 60 }, ⟨2, [(1, 1)]⟩) ∧
    (OnceInTimeInterval.init 60).call (clockProvider (fun n => 60 + 5 * (n : Int)))
        (work false 0) ⟨0, []⟩ =
      (true, OnceInTimeInterval.init 60, ⟨1, []⟩) :=
  ⟨((call_spec (OnceInTimeInterval.init 60) (clockProvider (fun n => 100 + 5 * (n : Int)))
      (work false 0) ⟨0, []⟩ 0 (by decide)).2.1 (by decide)).1,
    ((call_spec (OnceInTimeInterval.init 60) (clockProvider (fun n => 60 + 5 * (n : Int)))
      (work false 0) ⟨0, []⟩ 0 (by decide)).2.2 (by decide)).1⟩

/-! ## What the comparator reads -/

/-- C11. The comparator reads nothing but fee, blobSize and receiveTime: if
`L` and `L2` agree on these three fields and `R` and `R2` do too, the
comparator gives the same answer on `(L, R)` and `(L2, R2)`, whatever the id,
body, keptByBlock flag, maxUsedBlock and lastFailedBlock are. In particular
overwriting maxUsedBlock and lastFailedBlock of an entry changes no comparison
the entry takes part in, on either side. -/
theorem comparator_reads_three_fields (L L2 R R2 : PoolTransactionDetails)
    (hL : L.fee = L2.fee ∧ L.blobSize = L2.blobSize ∧ L.receiveTime = L2.receiveTime)
    (hR : R.fee = R2.fee ∧ R.blobSize = R2.blobSize ∧ R.receiveTime = R2.receiveTime) :
    TransactionPriorityComparator L R = TransactionPriorityComparator L2 R2 ∧
    (∀ used failed : BlockInfo,
      TransactionPriorityComparator
          { L with maxUsedBlock := used, lastFailedBlock := failed } R =
        TransactionPriorityComparator L R ∧
      TransactionPriorityComparator R
          { L with maxUsedBlock := used, lastFailedBlock := failed } =
        TransactionPriorityComparator R L) := by
  obtain ⟨h1, h2, h3⟩ := hL
  obtain ⟨h4, h5, h6⟩ := hR
  refine ⟨?_, fun used failed => ⟨rfl, rfl⟩⟩
  simp only [TransactionPriorityComparator, h1, h2, h3, h4, h5, h6]

/-- Witness for C11: two pairs of entries that agree on fee, blobSize and
receiveTime and differ in every other field. -/
theorem comparator_reads_three_fields_witness :
    TransactionPriorityComparator (mkEntry 1 200 50 7) (mkEntry 2 200 100 3) =
      TransactionPriorityComparator
        { maxUsedBlock := ⟨5, 6⟩, lastFailedBlock := ⟨4, 8⟩, id := 9, tx := ⟨[1, 2]⟩,
          blobSize := 50, fee := 200, keptByBlock := true, receiveTime := 7 }
        { maxUsedBlock := ⟨3, 1⟩, lastFailedBlock := ⟨2, 2⟩, id := 10, tx := ⟨[3]⟩,
          blobSize := 100, fee := 200, keptByBlock := true, receiveTime := 3 } :=
  (comparator_reads_three_fields (mkEntry 1 200 50 7)
    { maxUsedBlock := ⟨5, 6⟩, lastFailedBlock := ⟨4, 8⟩, id := 9, tx := ⟨[1, 2]⟩,
      blobSize := 50, fee := 200, keptByBlock := true, receiveTime := 7 }
    (mkEntry 2 200 100 3)
    { maxUsedBlock := ⟨3, 1⟩, lastFailedBlock := ⟨2, 2⟩, id := 10, tx := ⟨[3]⟩,
      blobSize := 100, fee := 200, keptByBlock := true, receiveTime := 3 }
    ⟨rfl, rfl, rfl⟩ ⟨rfl, rfl, rfl⟩).1

end CryptoNote

namespace System

/-! ## The timer's errno test -/

/-- C12. For every integer `e`, `testerrno e` is `true` if and only if `e`
equals `EAGAIN` or `e` equals `EWOULDBLOCK`, whatever values the platform
gives the two macros; when the platform defines neither, they are `35` and
`11`, and `testerrno e` is `true` exactly for `e = 35` and `e = 11`. -/
theorem testerrno_iff (h : ErrnoHeader) (e : Int) :
    (Timer.testerrno h e = true ↔ e = EAGAIN h ∨ e = EWOULDBLOCK h) ∧
    EAGAIN ⟨none, none⟩ = 35 ∧ EWOULDBLOCK ⟨none, none⟩ = 11 ∧
    (Timer.testerrno ⟨none, none⟩ e = true ↔ e = 35 ∨ e = 11) := by
  have key : ∀ g : ErrnoHeader,
      Timer.testerrno g e = true ↔ e = EAGAIN g ∨ e = EWOULDBLOCK g := by
    intro g
    unfold Timer.testerrno
    by_cases h1 : e = EAGAIN g
    · simp [h1]
    · by_cases h2 : e = EWOULDBLOCK g
      · simp [h1, h2]
      · simp [h1, h2]
  exact ⟨key h, rfl, rfl, key ⟨none, none⟩⟩

end System
